import Mathlib

/-!
Shallow embedding of `src/pencalc.py` (repository AoKishuba/Pencalc).

The program stores an ordered list of armor layers (hit points `hp`,
armor class `ac`, a structural flag) inside an `ArmorChunk`, then

* `armorcalc` (lines 61-76) walks the index range `0 .. len-2` and adds
  `next.ac * 0.2` to the current layer's `ac` whenever both layers are
  structural, mutating the list in place;
* `kdcalc` (lines 78-111) collects the `ac` of every layer except the
  last, takes `max` of that list (raising `ValueError` when the list is
  empty, i.e. when the chunk has at most one layer), and then, for
  `shell_ap = 0.1, 0.2, ...` while `shell_ap <= max_ap`, folds
  `hp * (ac / shell_ap) * (1 - cos shell_angle)` over the non-last
  layers, rounding the running sum to the nearest integer after every
  layer, and stores the result in the dict `KD_required[shell_ap]`.

Numbers are embedded as exact rationals (reals where the cosine makes a
value transcendental); Python's `round` (banker's rounding, ties to
even) is embedded as `pyRound` / `pyRoundR`, and `round(x, 1)` as
`pyRound1`.  Python `dict` insertion semantics (overwrite keeps the
original position, fresh keys append) are embedded by `dictInsert` on
association lists.  A `kdcalc` call that raises is embedded as `none`.
-/

namespace Pencalc

/-- One armor layer, as built by `ArmorChunk.add_layer` (pencalc.py
lines 54-58): a dict with keys `hp`, `ac`, `is_structural`. -/
structure Layer where
  hp : ℚ
  ac : ℚ
  is_structural : Bool
deriving DecidableEq, Repr, Inhabited

/-- The armor chunk (pencalc.py lines 30-40): an ordered list of layers
and the `KD_required` dict, embedded as an insertion-ordered
association list from AP value to required KD. -/
structure ArmorChunk where
  layers : List Layer
  KD_required : List (ℚ × ℤ)
deriving DecidableEq, Repr

/-- Python's built-in `round` to an integer: nearest integer, ties go
to the even integer (banker's rounding). -/
def pyRound (q : ℚ) : ℤ :=
  if q - ⌊q⌋ < 1/2 then ⌊q⌋
  else if 1/2 < q - ⌊q⌋ then ⌊q⌋ + 1
  else if ⌊q⌋ % 2 = 0 then ⌊q⌋ else ⌊q⌋ + 1

/-- Python's `round(x, 1)`: round to one decimal place. -/
def pyRound1 (q : ℚ) : ℚ :=
  (pyRound (q * 10) : ℚ) / 10

theorem le_pyRound (q : ℚ) : q - 1/2 ≤ (pyRound q : ℚ) := by
  have h1 := Int.floor_le q
  have h2 := Int.lt_floor_add_one q
  unfold pyRound
  split_ifs <;> push_cast <;> linarith

theorem pyRound_le (q : ℚ) : (pyRound q : ℚ) ≤ q + 1/2 := by
  have h1 := Int.floor_le q
  have h2 := Int.lt_floor_add_one q
  unfold pyRound
  split_ifs with hlt hgt <;> push_cast <;> linarith

theorem pyRound_intCast (n : ℤ) : pyRound (n : ℚ) = n := by
  unfold pyRound
  rw [Int.floor_intCast]
  norm_num

theorem le_pyRound1 (q : ℚ) : q - 1/20 ≤ pyRound1 q := by
  have := le_pyRound (q * 10)
  unfold pyRound1
  linarith

theorem pyRound1_le (q : ℚ) : pyRound1 q ≤ q + 1/20 := by
  have := pyRound_le (q * 10)
  unfold pyRound1
  linarith

/-- On exact multiples of `0.1` the one-decimal rounding of the source
(line 111, there to undo float drift) is the identity. -/
theorem pyRound1_grid (k : ℤ) : pyRound1 ((k : ℚ) / 10) = (k : ℚ) / 10 := by
  unfold pyRound1
  rw [div_mul_cancel₀ (b := (10 : ℚ)) (k : ℚ) (by norm_num), pyRound_intCast]

/-- The AP loop measure drops at every iteration: stepping
`shell_ap` by `0.1` (and re-rounding to one decimal) moves it up by at
least `1/20`. -/
theorem kdMeasure_lt (a s : ℚ) (h : s ≤ a) :
    (⌊(a - pyRound1 (s + 1/10)) * 20⌋ + 1).toNat < (⌊(a - s) * 20⌋ + 1).toNat := by
  have hstep : s + 1/20 ≤ pyRound1 (s + 1/10) := by
    have := le_pyRound1 (s + 1/10)
    linarith
  have hle : (a - pyRound1 (s + 1/10)) * 20 ≤ (a - s) * 20 - 1 := by linarith
  have hfl : ⌊(a - pyRound1 (s + 1/10)) * 20⌋ ≤ ⌊(a - s) * 20⌋ - 1 := by
    have : ⌊(a - pyRound1 (s + 1/10)) * 20⌋ ≤ ⌊(a - s) * 20 - 1⌋ := Int.floor_le_floor hle
    rwa [show (a - s) * 20 - 1 = (a - s) * 20 - (1 : ℤ) by push_cast; ring,
      Int.floor_sub_int] at this
  have hnn : (0 : ℤ) ≤ ⌊(a - s) * 20⌋ := by
    apply Int.floor_nonneg.2
    nlinarith
  exact (Int.toNat_lt_toNat (by omega)).2 (by omega)

/-- Python's built-in `round` on a real argument (same rule as
`pyRound`; needed because the angle multiplier is a real number). -/
noncomputable def pyRoundR (x : ℝ) : ℤ :=
  if x - ⌊x⌋ < 1/2 then ⌊x⌋
  else if 1/2 < x - ⌊x⌋ then ⌊x⌋ + 1
  else if ⌊x⌋ % 2 = 0 then ⌊x⌋ else ⌊x⌋ + 1

/-- Python's `max` over a list: `none` on the empty list (where CPython
raises `ValueError`), otherwise the maximum. -/
def pyMax : List ℚ → Option ℚ
  | [] => none
  | x :: xs => some (xs.foldl max x)

/-- Python dict assignment `d[k] = v`: overwriting an existing key
keeps its position, a fresh key is appended at the end. -/
def dictInsert (d : List (ℚ × ℤ)) (k : ℚ) (v : ℤ) : List (ℚ × ℤ) :=
  match d with
  | [] => [(k, v)]
  | (k', v') :: rest => if k' = k then (k, v) :: rest else (k', v') :: dictInsert rest k v

/-- Python dict lookup `d[k]` (as an `Option`). -/
def dictLookup : List (ℚ × ℤ) → ℚ → Option ℤ
  | [], _ => none
  | (k', v) :: d, k => if k' = k then some v else dictLookup d k

/-- Sequential dict assignment of a list of key/value pairs. -/
def dictInsertAll (d : List (ℚ × ℤ)) (ps : List (ℚ × ℤ)) : List (ℚ × ℤ) :=
  ps.foldl (fun d p => dictInsert d p.1 p.2) d

/-- Body of one iteration of the `armorcalc` loop (pencalc.py lines
70-76): read `layers[L]` and `layers[L+1]`, compute
`armor_boost = next_layer['ac'] * 0.2`, and when both layers are
structural replace `layers[L]`'s `ac` by `ac + armor_boost`. -/
def armorcalcStep (layers : List Layer) (L : ℕ) : List Layer :=
  let current_layer := layers.getD L default
  let next_layer := layers.getD (L + 1) default
  let armor_boost := next_layer.ac * (0.2 : ℚ)
  if current_layer.is_structural && next_layer.is_structural then
    layers.set L { current_layer with ac := current_layer.ac + armor_boost }
  else
    layers

/-- The `armorcalc` pass on the layer list (pencalc.py line 69):
`for L in range(0, len(self.layers) - 1)` running `armorcalcStep`. -/
def armorcalcL (layers : List Layer) : List Layer :=
  (List.range (layers.length - 1)).foldl armorcalcStep layers

/-- `ArmorChunk.armorcalc` (pencalc.py lines 61-76): mutates the layer
list, leaves `KD_required` alone. -/
def ArmorChunk.armorcalc (c : ArmorChunk) : ArmorChunk :=
  { layers := armorcalcL c.layers, KD_required := c.KD_required }

/-- The `layer_ac` list of `kdcalc` (pencalc.py lines 91-93): the `ac`
of every layer except the last, in order. -/
def nonLastAcs (layers : List Layer) : List ℚ :=
  (List.range (layers.length - 1)).map fun L => (layers.getD L default).ac

/-- `angle_multiplier` (pencalc.py line 103): `1 - math.cos(shell_angle)`,
applied to the caller-supplied angle with no unit conversion. -/
noncomputable def angle_multiplier (shell_angle : ℝ) : ℝ :=
  1 - Real.cos shell_angle

/-- Inner loop of `kdcalc` (pencalc.py lines 100-108) with the angle
multiplier abstracted: starting from `chunk_effective_hp = 0`, for each
non-last layer add `hp * (ac / shell_ap) * mult` and round the running
sum to the nearest integer. -/
noncomputable def innerFoldM (layers : List Layer) (mult : ℝ) (shell_ap : ℚ) : ℤ :=
  (List.range (layers.length - 1)).foldl
    (fun acc L =>
      pyRoundR ((acc : ℝ) +
        ((layers.getD L default).hp : ℝ) *
          (((layers.getD L default).ac : ℝ) / (shell_ap : ℝ)) * mult))
    0

/-- The `while shell_ap <= max_ap` loop of `kdcalc` (pencalc.py lines
98-111), threading the `KD_required` dict: store the inner-fold result
at key `shell_ap`, then `shell_ap += 0.1; shell_ap = round(shell_ap, 1)`. -/
noncomputable def kdLoopGoM (layers : List Layer) (mult : ℝ) (max_ap : ℚ)
    (d : List (ℚ × ℤ)) (shell_ap : ℚ) : List (ℚ × ℤ) :=
  if h : shell_ap ≤ max_ap then
    kdLoopGoM layers mult max_ap
      (dictInsert d shell_ap (innerFoldM layers mult shell_ap))
      (pyRound1 (shell_ap + 1/10))
  else
    d
termination_by (⌊(max_ap - shell_ap) * 20⌋ + 1).toNat
decreasing_by
  exact kdMeasure_lt max_ap shell_ap h

/-- The list of (AP, KD) pairs the `while` loop of `kdcalc` writes, in
write order (same recursion as `kdLoopGoM`, without the dict). -/
noncomputable def kdPairs (layers : List Layer) (mult : ℝ) (max_ap : ℚ)
    (shell_ap : ℚ) : List (ℚ × ℤ) :=
  if h : shell_ap ≤ max_ap then
    (shell_ap, innerFoldM layers mult shell_ap) ::
      kdPairs layers mult max_ap (pyRound1 (shell_ap + 1/10))
  else
    []
termination_by (⌊(max_ap - shell_ap) * 20⌋ + 1).toNat
decreasing_by
  exact kdMeasure_lt max_ap shell_ap h

/-- `kdcalc` with the angle multiplier abstracted (pencalc.py lines
90-111): compute `layer_ac`, raise (`none`) when `max` gets an empty
list, else run the AP loop starting at `shell_ap = 0.1`. -/
noncomputable def kdcalcM (c : ArmorChunk) (mult : ℝ) : Option ArmorChunk :=
  match pyMax (nonLastAcs c.layers) with
  | none => none
  | some max_ap =>
      some { layers := c.layers,
             KD_required := kdLoopGoM c.layers mult max_ap c.KD_required (1/10) }

/-- `ArmorChunk.kdcalc` (pencalc.py lines 78-111): the KD pass at a
given shell angle, whose multiplier is `angle_multiplier shell_angle`. -/
noncomputable def ArmorChunk.kdcalc (c : ArmorChunk) (shell_angle : ℝ) : Option ArmorChunk :=
  kdcalcM c (angle_multiplier shell_angle)

/-! ## Closed form of the `armorcalc` pass -/

/-- The value `armorcalc` leaves at index `i` (for `i` below the
second-to-last index), expressed from the pre-pass list: the pre-pass
layer, with `ac` boosted by `0.2` times the pre-pass `ac` of the next
layer when both are structural. -/
def updLayer (l : List Layer) (i : ℕ) : Layer :=
  if (l.getD i default).is_structural && (l.getD (i + 1) default).is_structural then
    { l.getD i default with
      ac := (l.getD i default).ac + (l.getD (i + 1) default).ac * (0.2 : ℚ) }
  else
    l.getD i default

theorem armorcalc_fold_spec (l : List Layer) :
    ∀ k, k ≤ l.length - 1 →
      ((List.range k).foldl armorcalcStep l).length = l.length ∧
      (∀ i, i < k → ((List.range k).foldl armorcalcStep l).getD i default = updLayer l i) ∧
      (∀ i, k ≤ i → ((List.range k).foldl armorcalcStep l).getD i default = l.getD i default) := by
  intro k
  induction k with
  | zero =>
      intro _
      refine ⟨rfl, fun i hi => absurd hi (Nat.not_lt_zero i), fun i _ => rfl⟩
  | succ k ih =>
      intro hk
      obtain ⟨ihlen, ihlt, ihge⟩ := ih (Nat.le_of_succ_le hk)
      set lk := (List.range k).foldl armorcalcStep l with hlk
      have hkl : k < l.length := by omega
      have hkl1 : k + 1 < l.length := by omega
      have hfold : (List.range (k + 1)).foldl armorcalcStep l = armorcalcStep lk k := by
        rw [List.range_succ, List.foldl_append, ← hlk, List.foldl_cons, List.foldl_nil]
      have hcur : lk.getD k default = l.getD k default := ihge k le_rfl
      have hnxt : lk.getD (k + 1) default = l.getD (k + 1) default :=
        ihge (k + 1) (Nat.le_succ k)
      rw [hfold]
      unfold armorcalcStep
      rw [hcur, hnxt]
      by_cases hs : ((l.getD k default).is_structural && (l.getD (k + 1) default).is_structural) = true
      · rw [if_pos hs]
        have hklk : k < lk.length := by rw [ihlen]; exact hkl
        refine ⟨by rw [List.length_set, ihlen], ?_, ?_⟩
        · intro i hi
          rcases Nat.lt_succ_iff_lt_or_eq.1 hi with hi' | rfl
          · rw [List.getD_eq_getElem?_getD, List.getElem?_set_ne (by omega),
              ← List.getD_eq_getElem?_getD]
            exact ihlt i hi'
          · rw [List.getD_eq_getElem?_getD, List.getElem?_set_self hklk]
            unfold updLayer
            rw [if_pos hs]
            rfl
        · intro i hi
          rw [List.getD_eq_getElem?_getD, List.getElem?_set_ne (by omega),
            ← List.getD_eq_getElem?_getD]
          exact ihge i (by omega)
      · rw [if_neg hs]
        refine ⟨ihlen, ?_, fun i hi => ihge i (by omega)⟩
        intro i hi
        rcases Nat.lt_succ_iff_lt_or_eq.1 hi with hi' | rfl
        · exact ihlt i hi'
        · rw [ihge i le_rfl]
          unfold updLayer
          rw [if_neg hs]

theorem armorcalcL_length (l : List Layer) : (armorcalcL l).length = l.length :=
  (armorcalc_fold_spec l (l.length - 1) le_rfl).1

theorem armorcalcL_getD_lt (l : List Layer) (i : ℕ) (h : i + 1 < l.length) :
    (armorcalcL l).getD i default = updLayer l i :=
  (armorcalc_fold_spec l (l.length - 1) le_rfl).2.1 i (by omega)

theorem armorcalcL_getD_ge (l : List Layer) (i : ℕ) (h : l.length ≤ i + 1) :
    (armorcalcL l).getD i default = l.getD i default :=
  (armorcalc_fold_spec l (l.length - 1) le_rfl).2.2 i (by omega)

theorem armorcalcL_structural (l : List Layer) (i : ℕ) :
    ((armorcalcL l).getD i default).is_structural = (l.getD i default).is_structural := by
  rcases lt_or_le (i + 1) l.length with h | h
  · rw [armorcalcL_getD_lt l i h]
    unfold updLayer
    split_ifs <;> rfl
  · rw [armorcalcL_getD_ge l i h]

theorem armorcalcL_hp (l : List Layer) (i : ℕ) :
    ((armorcalcL l).getD i default).hp = (l.getD i default).hp := by
  rcases lt_or_le (i + 1) l.length with h | h
  · rw [armorcalcL_getD_lt l i h]
    unfold updLayer
    split_ifs <;> rfl
  · rw [armorcalcL_getD_ge l i h]

/-- C1: a single `armorcalc` pass sets the `ac` of each layer `i` with
`i < len - 1` to its pre-pass `ac` plus `0.2` times the pre-pass `ac`
of layer `i+1` when both layers are structural, and leaves it
unchanged otherwise; in particular, for a two-layer all-structural
chunk, layer 0's `ac` becomes `base_ac0 + 0.2 * base_ac1` and layer 1
is unchanged.  Boosts are always computed from the successor's
un-boosted `ac`, so they never compound within one pass. -/
theorem claim_C1_armorcalc_single_pass :
    (∀ (c : ArmorChunk) (i : ℕ), i + 1 < c.layers.length →
      ((c.armorcalc.layers).getD i default).ac =
        (c.layers.getD i default).ac +
          (if (c.layers.getD i default).is_structural &&
              (c.layers.getD (i + 1) default).is_structural
            then (c.layers.getD (i + 1) default).ac * (0.2 : ℚ) else 0)) ∧
    (∀ hp0 hp1 a b : ℚ,
      armorcalcL [⟨hp0, a, true⟩, ⟨hp1, b, true⟩] =
        [⟨hp0, a + b * (0.2 : ℚ), true⟩, ⟨hp1, b, true⟩]) := by
  constructor
  · intro c i h
    show ((armorcalcL c.layers).getD i default).ac = _
    rw [armorcalcL_getD_lt c.layers i h]
    unfold updLayer
    by_cases hs : ((c.layers.getD i default).is_structural &&
        (c.layers.getD (i + 1) default).is_structural) = true
    · rw [if_pos hs, if_pos hs]
    · rw [if_neg hs, if_neg hs, add_zero]
  · intro hp0 hp1 a b
    rfl

theorem claim_C1_witness :
    (0 + 1 < (ArmorChunk.mk [⟨864, 8, true⟩, ⟨1680, 40, true⟩] []).layers.length) ∧
    (((ArmorChunk.mk [⟨864, 8, true⟩, ⟨1680, 40, true⟩] []).armorcalc.layers.getD 0 default).ac =
      ((ArmorChunk.mk [⟨864, 8, true⟩, ⟨1680, 40, true⟩] []).layers.getD 0 default).ac +
        (if ((ArmorChunk.mk [⟨864, 8, true⟩, ⟨1680, 40, true⟩] []).layers.getD 0 default).is_structural &&
            ((ArmorChunk.mk [⟨864, 8, true⟩, ⟨1680, 40, true⟩] []).layers.getD (0 + 1) default).is_structural
          then ((ArmorChunk.mk [⟨864, 8, true⟩, ⟨1680, 40, true⟩] []).layers.getD (0 + 1) default).ac * (0.2 : ℚ)
          else 0)) :=
  ⟨by decide, claim_C1_armorcalc_single_pass.1 (ArmorChunk.mk [⟨864, 8, true⟩, ⟨1680, 40, true⟩] []) 0 (by decide)⟩

/-- If the boosted list still has a nonzero `ac` after a qualifying
structural pair, or the chain of forced zeros runs into the (never
boosted) last layer, a second `armorcalc` pass changes some `ac`. -/
theorem second_pass_changes (l : List Layer) :
    ∀ (k i : ℕ), l.length - i = k →
      i + 1 < l.length →
      (l.getD i default).is_structural = true →
      (l.getD (i + 1) default).is_structural = true →
      (l.getD (i + 1) default).ac ≠ 0 →
      ∃ j, ((armorcalcL (armorcalcL l)).getD j default).ac ≠
        ((armorcalcL l).getD j default).ac := by
  intro k
  induction k using Nat.strong_induction_on with
  | _ k ih =>
    intro i hk hlen hsi hsi1 hac
    by_cases hz : ((armorcalcL l).getD (i + 1) default).ac = 0
    · -- The boost at `i` was cancelled, so layer `i+2` must exist,
      -- be structural, and have nonzero `ac`: recurse one step right.
      have hne : ¬ l.length ≤ (i + 1) + 1 := by
        intro hge
        rw [armorcalcL_getD_ge l (i + 1) hge] at hz
        exact hac hz
      have hlt2 : (i + 1) + 1 < l.length := by omega
      rw [armorcalcL_getD_lt l (i + 1) hlt2] at hz
      unfold updLayer at hz
      by_cases hs2 : ((l.getD (i + 1) default).is_structural &&
          (l.getD (i + 1 + 1) default).is_structural) = true
      · rw [if_pos hs2] at hz
        have hs2' : (l.getD (i + 2) default).is_structural = true := by
          have h' := hs2
          simp only [Bool.and_eq_true] at h'
          exact h'.2
        have hac2 : (l.getD (i + 2) default).ac ≠ 0 := by
          intro h0
          apply hac
          have : (l.getD (i + 1) default).ac + (l.getD (i + 1 + 1) default).ac * (0.2 : ℚ) = 0 := hz
          rw [show i + 1 + 1 = i + 2 from rfl, h0] at this
          linarith
        exact ih (l.length - (i + 1)) (by omega) (i + 1) rfl (by omega) hsi1
          (by rw [show i + 1 + 1 = i + 2 from rfl]; exact hs2') (by rw [show i + 1 + 1 = i + 2 from rfl]; exact hac2)
      · rw [if_neg hs2] at hz
        exact absurd hz hac
    · -- The pair `(i, i+1)` still qualifies in the boosted list, so
      -- the second pass strictly changes layer `i`'s `ac`.
      refine ⟨i, ?_⟩
      have hlen' : i + 1 < (armorcalcL l).length := by rw [armorcalcL_length]; exact hlen
      rw [armorcalcL_getD_lt (armorcalcL l) i hlen']
      unfold updLayer
      rw [if_pos (by
        rw [armorcalcL_structural l i, armorcalcL_structural l (i + 1), hsi, hsi1]
        rfl)]
      show ((armorcalcL l).getD i default).ac + _ ≠ _
      intro heq
      apply hz
      have : ((armorcalcL l).getD (i + 1) default).ac * (0.2 : ℚ) = 0 := by linarith
      rcases mul_eq_zero.1 this with h0 | h0
      · exact h0
      · norm_num at h0

/-- C5: `armorcalc` is not idempotent.  Whenever the chunk contains an
adjacent structural pair whose successor has nonzero `ac`, a second run
of `armorcalc` changes some layer's `ac` again; in particular on a
two-layer all-structural chunk with `base_ac1 ≠ 0`, two runs leave
layer 0's `ac` different from the single-run value. -/
theorem claim_C5_armorcalc_not_idempotent :
    (∀ l : List Layer,
      (∃ i, i + 1 < l.length ∧
        (l.getD i default).is_structural = true ∧
        (l.getD (i + 1) default).is_structural = true ∧
        (l.getD (i + 1) default).ac ≠ 0) →
      armorcalcL (armorcalcL l) ≠ armorcalcL l) ∧
    (∀ hp0 hp1 a b : ℚ, b ≠ 0 →
      ((armorcalcL (armorcalcL [⟨hp0, a, true⟩, ⟨hp1, b, true⟩])).getD 0 default).ac ≠
        ((armorcalcL [⟨hp0, a, true⟩, ⟨hp1, b, true⟩]).getD 0 default).ac) := by
  constructor
  · rintro l ⟨i, hlen, hsi, hsi1, hac⟩
    obtain ⟨j, hj⟩ := second_pass_changes l (l.length - i) i rfl hlen hsi hsi1 hac
    intro heq
    rw [heq] at hj
    exact hj rfl
  · intro hp0 hp1 a b hb
    have e1 : armorcalcL [Layer.mk hp0 a true, Layer.mk hp1 b true] =
        [Layer.mk hp0 (a + b * (0.2 : ℚ)) true, Layer.mk hp1 b true] := rfl
    have e2 : armorcalcL [Layer.mk hp0 (a + b * (0.2 : ℚ)) true, Layer.mk hp1 b true] =
        [Layer.mk hp0 (a + b * (0.2 : ℚ) + b * (0.2 : ℚ)) true, Layer.mk hp1 b true] := rfl
    rw [e1, e2]
    show a + b * (0.2 : ℚ) + b * (0.2 : ℚ) ≠ a + b * (0.2 : ℚ)
    intro heq
    apply hb
    nlinarith

theorem claim_C5_witness :
    (∃ i, i + 1 < ([⟨0, 1, true⟩, ⟨0, 2, true⟩] : List Layer).length ∧
      (([⟨0, 1, true⟩, ⟨0, 2, true⟩] : List Layer).getD i default).is_structural = true ∧
      (([⟨0, 1, true⟩, ⟨0, 2, true⟩] : List Layer).getD (i + 1) default).is_structural = true ∧
      (([⟨0, 1, true⟩, ⟨0, 2, true⟩] : List Layer).getD (i + 1) default).ac ≠ 0) ∧
    armorcalcL (armorcalcL [⟨0, 1, true⟩, ⟨0, 2, true⟩]) ≠
      armorcalcL [⟨0, 1, true⟩, ⟨0, 2, true⟩] :=
  ⟨⟨0, by decide, by decide, by decide, by decide⟩,
    claim_C5_armorcalc_not_idempotent.1 [⟨0, 1, true⟩, ⟨0, 2, true⟩]
      ⟨0, by decide, by decide, by decide, by decide⟩⟩

/-! ## Rounding and dict lemmas for the KD pass -/

theorem pyRoundR_intCast (n : ℤ) : pyRoundR (n : ℝ) = n := by
  unfold pyRoundR
  rw [Int.floor_intCast]
  norm_num

theorem kdLoopGoM_eq (layers : List Layer) (mult : ℝ) (max_ap : ℚ)
    (d : List (ℚ × ℤ)) (shell_ap : ℚ) :
    kdLoopGoM layers mult max_ap d shell_ap =
      if shell_ap ≤ max_ap then
        kdLoopGoM layers mult max_ap
          (dictInsert d shell_ap (innerFoldM layers mult shell_ap))
          (pyRound1 (shell_ap + 1/10))
      else d := by
  rw [kdLoopGoM]
  split_ifs <;> rfl

theorem kdPairs_eq (layers : List Layer) (mult : ℝ) (max_ap : ℚ) (shell_ap : ℚ) :
    kdPairs layers mult max_ap shell_ap =
      if shell_ap ≤ max_ap then
        (shell_ap, innerFoldM layers mult shell_ap) ::
          kdPairs layers mult max_ap (pyRound1 (shell_ap + 1/10))
      else [] := by
  rw [kdPairs]
  split_ifs <;> rfl

theorem mem_dictInsert (d : List (ℚ × ℤ)) (k : ℚ) (v : ℤ) (p : ℚ × ℤ)
    (hp : p ∈ dictInsert d k v) : p ∈ d ∨ p = (k, v) := by
  induction d with
  | nil =>
      simp only [dictInsert, List.mem_singleton] at hp
      exact Or.inr hp
  | cons q rest ih =>
      obtain ⟨k', v'⟩ := q
      unfold dictInsert at hp
      by_cases hk : k' = k
      · rw [if_pos hk] at hp
        rcases List.mem_cons.1 hp with h | h
        · exact Or.inr h
        · exact Or.inl (List.mem_cons_of_mem _ h)
      · rw [if_neg hk] at hp
        rcases List.mem_cons.1 hp with h | h
        · exact Or.inl (h ▸ List.mem_cons_self _ _)
        · rcases ih h with h' | h'
          · exact Or.inl (List.mem_cons_of_mem _ h')
          · exact Or.inr h'

theorem dictLookup_dictInsert_self (d : List (ℚ × ℤ)) (k : ℚ) (v : ℤ) :
    dictLookup (dictInsert d k v) k = some v := by
  induction d with
  | nil => simp [dictInsert, dictLookup]
  | cons q rest ih =>
      obtain ⟨k', v'⟩ := q
      unfold dictInsert
      by_cases hk : k' = k
      · rw [if_pos hk]
        simp [dictLookup]
      · rw [if_neg hk]
        unfold dictLookup
        rw [if_neg hk]
        exact ih

theorem dictLookup_dictInsert_ne (d : List (ℚ × ℤ)) (k : ℚ) (v : ℤ) (k' : ℚ)
    (h : k' ≠ k) : dictLookup (dictInsert d k v) k' = dictLookup d k' := by
  induction d with
  | nil =>
      show (if k = k' then some v else dictLookup [] k') = dictLookup [] k'
      rw [if_neg (fun he : k = k' => h he.symm)]
  | cons q rest ih =>
      obtain ⟨k0, v0⟩ := q
      unfold dictInsert
      by_cases hk : k0 = k
      · rw [if_pos hk]
        show (if k = k' then some v else dictLookup rest k') =
          if k0 = k' then some v0 else dictLookup rest k'
        rw [if_neg (fun he : k = k' => h he.symm),
          if_neg (fun he : k0 = k' => h (he ▸ hk))]
      · rw [if_neg hk]
        show (if k0 = k' then some v0 else dictLookup (dictInsert rest k v) k') =
          if k0 = k' then some v0 else dictLookup rest k'
        by_cases h0 : k0 = k'
        · rw [if_pos h0, if_pos h0]
        · rw [if_neg h0, if_neg h0]
          exact ih

theorem dictInsert_of_lookup (d : List (ℚ × ℤ)) (k : ℚ) (v : ℤ)
    (h : dictLookup d k = some v) : dictInsert d k v = d := by
  induction d with
  | nil => simp [dictLookup] at h
  | cons q rest ih =>
      obtain ⟨k', v'⟩ := q
      unfold dictLookup at h
      unfold dictInsert
      by_cases hk : k' = k
      · rw [if_pos hk] at h ⊢
        obtain rfl : v' = v := by simpa using h
        rw [hk]
      · rw [if_neg hk] at h ⊢
        rw [ih h]

theorem dictInsert_fresh (d : List (ℚ × ℤ)) (k : ℚ) (v : ℤ)
    (h : dictLookup d k = none) : dictInsert d k v = d ++ [(k, v)] := by
  induction d with
  | nil => rfl
  | cons q rest ih =>
      obtain ⟨k', v'⟩ := q
      unfold dictLookup at h
      unfold dictInsert
      by_cases hk : k' = k
      · rw [if_pos hk] at h
        exact absurd h (by simp)
      · rw [if_neg hk] at h ⊢
        rw [ih h]
        rfl

theorem dictInsertAll_nil (d : List (ℚ × ℤ)) : dictInsertAll d [] = d := rfl

theorem dictInsertAll_cons (d : List (ℚ × ℤ)) (p : ℚ × ℤ) (ps : List (ℚ × ℤ)) :
    dictInsertAll d (p :: ps) = dictInsertAll (dictInsert d p.1 p.2) ps := rfl

theorem mem_dictInsertAll (d ps : List (ℚ × ℤ)) (p : ℚ × ℤ)
    (hp : p ∈ dictInsertAll d ps) : p ∈ d ∨ p ∈ ps := by
  induction ps generalizing d with
  | nil => exact Or.inl hp
  | cons q ps ih =>
      rw [dictInsertAll_cons] at hp
      rcases ih _ hp with h | h
      · rcases mem_dictInsert _ _ _ _ h with h' | h'
        · exact Or.inl h'
        · exact Or.inr (h' ▸ List.mem_cons_self _ _)
      · exact Or.inr (List.mem_cons_of_mem _ h)

theorem dictLookup_dictInsertAll_not_mem (d ps : List (ℚ × ℤ)) (k : ℚ)
    (h : k ∉ ps.map Prod.fst) : dictLookup (dictInsertAll d ps) k = dictLookup d k := by
  induction ps generalizing d with
  | nil => rfl
  | cons q ps ih =>
      rw [dictInsertAll_cons]
      have hk : k ≠ q.1 := by
        intro he
        exact h (by simp [he])
      rw [ih _ (fun hm => h (by simp only [List.map_cons, List.mem_cons]; exact Or.inr hm)),
        dictLookup_dictInsert_ne _ _ _ _ hk]

theorem dictLookup_dictInsertAll_mem :
    ∀ (ps d : List (ℚ × ℤ)), (ps.map Prod.fst).Nodup →
      ∀ p ∈ ps, dictLookup (dictInsertAll d ps) p.1 = some p.2 := by
  intro ps
  induction ps with
  | nil => intro d _ p hp; cases hp
  | cons q ps ih =>
      intro d hnd p hp
      rw [List.map_cons, List.nodup_cons] at hnd
      rw [dictInsertAll_cons]
      rcases List.mem_cons.1 hp with rfl | hmem
      · rw [dictLookup_dictInsertAll_not_mem _ _ _ hnd.1, dictLookup_dictInsert_self]
      · exact ih _ hnd.2 p hmem

theorem dictInsertAll_id (d ps : List (ℚ × ℤ))
    (h : ∀ p ∈ ps, dictLookup d p.1 = some p.2) : dictInsertAll d ps = d := by
  induction ps with
  | nil => rfl
  | cons q ps ih =>
      rw [dictInsertAll_cons, dictInsert_of_lookup d q.1 q.2 (h q (List.mem_cons_self _ _))]
      exact ih fun p hp => h p (List.mem_cons_of_mem _ hp)

theorem dictLookup_append_of_none (d d' : List (ℚ × ℤ)) (k : ℚ)
    (h : dictLookup d k = none) : dictLookup (d ++ d') k = dictLookup d' k := by
  induction d with
  | nil => rfl
  | cons q rest ih =>
      obtain ⟨k', v'⟩ := q
      have h' : (if k' = k then some v' else dictLookup rest k) = none := h
      rw [List.cons_append]
      show (if k' = k then some v' else dictLookup (rest ++ d') k) = dictLookup d' k
      by_cases hk : k' = k
      · rw [if_pos hk] at h'
        exact absurd h' (by simp)
      · rw [if_neg hk] at h'
        rw [if_neg hk]
        exact ih h'

theorem dictInsertAll_fresh :
    ∀ (ps d : List (ℚ × ℤ)),
      (∀ k ∈ ps.map Prod.fst, dictLookup d k = none) →
      (ps.map Prod.fst).Nodup → dictInsertAll d ps = d ++ ps := by
  intro ps
  induction ps with
  | nil => intro d _ _; simp [dictInsertAll_nil]
  | cons q ps ih =>
      intro d h hnd
      rw [List.map_cons, List.nodup_cons] at hnd
      rw [dictInsertAll_cons, dictInsert_fresh d q.1 q.2 (h q.1 (by simp))]
      rw [ih (d ++ [(q.1, q.2)]) ?hfresh hnd.2]
      · simp
      case hfresh =>
        intro k hk
        have hkq : k ≠ q.1 := by
          intro he
          exact hnd.1 (he ▸ hk)
        rw [dictLookup_append_of_none _ _ _
          (h k (by simp only [List.map_cons, List.mem_cons]; exact Or.inr hk))]
        show (if q.1 = k then some q.2 else dictLookup [] k) = none
        rw [if_neg (fun he : q.1 = k => hkq he.symm)]
        rfl

/-! ## Characterization of the AP loop -/

theorem kdLoopGoM_eq_insertAll (l : List Layer) (mult : ℝ) (a : ℚ) :
    ∀ (s : ℚ) (d : List (ℚ × ℤ)),
      kdLoopGoM l mult a d s = dictInsertAll d (kdPairs l mult a s) := by
  have main : ∀ (n : ℕ) (s : ℚ), (⌊(a - s) * 20⌋ + 1).toNat = n →
      ∀ d, kdLoopGoM l mult a d s = dictInsertAll d (kdPairs l mult a s) := by
    intro n
    induction n using Nat.strong_induction_on with
    | _ n ih =>
      intro s hn d
      rw [kdLoopGoM_eq, kdPairs_eq]
      by_cases h : s ≤ a
      · rw [if_pos h, if_pos h, dictInsertAll_cons]
        exact ih _ (hn ▸ kdMeasure_lt a s h) _ rfl _
      · rw [if_neg h, if_neg h, dictInsertAll_nil]
  intro s d
  exact main _ s rfl d

theorem kdPairs_snd (l : List Layer) (mult : ℝ) (a : ℚ) :
    ∀ (s : ℚ), ∀ p ∈ kdPairs l mult a s, p.2 = innerFoldM l mult p.1 := by
  have main : ∀ (n : ℕ) (s : ℚ), (⌊(a - s) * 20⌋ + 1).toNat = n →
      ∀ p ∈ kdPairs l mult a s, p.2 = innerFoldM l mult p.1 := by
    intro n
    induction n using Nat.strong_induction_on with
    | _ n ih =>
      intro s hn p hp
      rw [kdPairs_eq] at hp
      by_cases h : s ≤ a
      · rw [if_pos h] at hp
        rcases List.mem_cons.1 hp with rfl | hmem
        · rfl
        · exact ih _ (hn ▸ kdMeasure_lt a s h) _ rfl p hmem
      · rw [if_neg h] at hp
        cases hp
  intro s p hp
  exact main _ s rfl p hp

/-- The keys the AP loop visits, starting from `k/10` (`k ≥ 1`): the
grid values `k/10, (k+1)/10, ...` up to the largest one `≤ max_ap`. -/
theorem kdPairs_keys (l : List Layer) (mult : ℝ) (a : ℚ) :
    ∀ (n k : ℕ), 1 ≤ k → n = (⌊a * 10⌋).toNat + 1 - k →
      (kdPairs l mult a ((k : ℚ) / 10)).map Prod.fst =
        (List.range n).map (fun j => ((k + j : ℕ) : ℚ) / 10) := by
  intro n
  induction n with
  | zero =>
      intro k hk hn
      have hgt : ¬ ((k : ℚ) / 10 ≤ a) := by
        intro hle
        have h10 : ((k : ℤ) : ℚ) ≤ a * 10 := by push_cast; linarith
        have hfl : (k : ℤ) ≤ ⌊a * 10⌋ := Int.le_floor.2 h10
        omega
      rw [kdPairs_eq, if_neg hgt]
      rfl
  | succ n ihn =>
      intro k hk hn
      have hkle : (k : ℤ) ≤ ⌊a * 10⌋ := by omega
      have hle : (k : ℚ) / 10 ≤ a := by
        have h10 : ((k : ℤ) : ℚ) ≤ a * 10 := Int.le_floor.1 hkle
        push_cast at h10
        linarith
      rw [kdPairs_eq, if_pos hle]
      have hstep : pyRound1 ((k : ℚ) / 10 + 1 / 10) = ((k + 1 : ℕ) : ℚ) / 10 := by
        have he : (k : ℚ) / 10 + 1 / 10 = (((k : ℤ) + 1 : ℤ) : ℚ) / 10 := by
          push_cast; ring
        rw [he, pyRound1_grid]
        push_cast; ring
      rw [List.map_cons, hstep, ihn (k + 1) (by omega) (by omega)]
      rw [List.range_succ_eq_map, List.map_cons, List.map_map]
      congr 1
      norm_num
      intro j hj
      ring

/-- At angle multiplier `0` the inner fold stays at `0`: every
contribution vanishes and rounding an integer is the identity. -/
theorem innerFoldM_mult_zero (l : List Layer) (ap : ℚ) : innerFoldM l 0 ap = 0 := by
  unfold innerFoldM
  have h : ∀ (xs : List ℕ) (acc : ℤ),
      xs.foldl (fun acc L =>
        pyRoundR ((acc : ℝ) +
          ((l.getD L default).hp : ℝ) *
            (((l.getD L default).ac : ℝ) / (ap : ℝ)) * 0)) acc = acc := by
    intro xs
    induction xs with
    | nil => intro acc; rfl
    | cons x xs ih =>
        intro acc
        rw [List.foldl_cons, mul_zero, add_zero, pyRoundR_intCast]
        exact ih acc
  exact h _ 0

/-! ## `pyMax` and general fold lemmas -/

theorem foldl_max_mem : ∀ (xs : List ℚ) (x : ℚ), xs.foldl max x ∈ x :: xs := by
  intro xs
  induction xs with
  | nil => intro x; exact List.mem_singleton.2 rfl
  | cons y ys ih =>
      intro x
      rw [List.foldl_cons]
      rcases List.mem_cons.1 (ih (max x y)) with h | h
      · rcases max_choice x y with hm | hm
        · exact List.mem_cons.2 (Or.inl (h.trans hm))
        · exact List.mem_cons.2 (Or.inr (List.mem_cons.2 (Or.inl (h.trans hm))))
      · exact List.mem_cons.2 (Or.inr (List.mem_cons.2 (Or.inr h)))

theorem le_foldl_max : ∀ (xs : List ℚ) (x : ℚ),
    x ≤ xs.foldl max x ∧ ∀ y ∈ xs, y ≤ xs.foldl max x := by
  intro xs
  induction xs with
  | nil => intro x; exact ⟨le_rfl, fun y hy => absurd hy (List.not_mem_nil y)⟩
  | cons z zs ih =>
      intro x
      rw [List.foldl_cons]
      refine ⟨le_trans (le_max_left x z) (ih (max x z)).1, ?_⟩
      intro y hy
      rcases List.mem_cons.1 hy with rfl | hy'
      · exact le_trans (le_max_right x y) (ih (max x y)).1
      · exact (ih (max x z)).2 y hy'

theorem pyMax_mem (xs : List ℚ) (m : ℚ) (h : pyMax xs = some m) : m ∈ xs := by
  cases xs with
  | nil => cases h
  | cons x xs =>
      obtain rfl : xs.foldl max x = m := by simpa [pyMax] using h
      exact foldl_max_mem xs x

theorem pyMax_le (xs : List ℚ) (m : ℚ) (h : pyMax xs = some m) : ∀ x ∈ xs, x ≤ m := by
  cases xs with
  | nil => cases h
  | cons x xs =>
      obtain rfl : xs.foldl max x = m := by simpa [pyMax] using h
      intro y hy
      rcases List.mem_cons.1 hy with rfl | hy'
      · exact (le_foldl_max xs y).1
      · exact (le_foldl_max xs x).2 y hy'

theorem pyMax_eq_none (xs : List ℚ) : pyMax xs = none ↔ xs = [] := by
  cases xs <;> simp [pyMax]

/-- Folding a function of `getD` over `range n` is folding over the
`n`-element prefix of the list. -/
theorem foldl_range_getD (l : List Layer) (f : ℤ → Layer → ℤ) :
    ∀ (n : ℕ), n ≤ l.length → ∀ (acc : ℤ),
      (List.range n).foldl (fun a i => f a (l.getD i default)) acc = (l.take n).foldl f acc := by
  intro n
  induction n with
  | zero => intro _ acc; rfl
  | succ n ih =>
      intro hn acc
      have hlt : n < l.length := by omega
      rw [List.range_succ, List.foldl_append, List.foldl_cons, List.foldl_nil,
        ih (by omega) acc, List.take_succ, List.foldl_append,
        List.getElem?_eq_getElem hlt]
      simp only [Option.toList_some, List.foldl_cons, List.foldl_nil]
      rw [List.getD_eq_getElem?_getD, List.getElem?_eq_getElem hlt, Option.getD_some]

/-- The strictly ascending AP grid `(k+0)/10, (k+1)/10, ...`. -/
theorem grid_pairwise_lt (k n : ℕ) :
    (((List.range n).map (fun j => ((k + j : ℕ) : ℚ) / 10)).Pairwise (· < ·)) := by
  refine List.Pairwise.map _ ?_ (List.pairwise_lt_range n)
  intro a b hab
  have : ((k + a : ℕ) : ℚ) < ((k + b : ℕ) : ℚ) := by exact_mod_cast by omega
  linarith

/-- Equation form of `kdcalcM`. -/
theorem kdcalcM_eq (c : ArmorChunk) (mult : ℝ) :
    kdcalcM c mult = (pyMax (nonLastAcs c.layers)).map
      (fun max_ap =>
        { layers := c.layers,
          KD_required := kdLoopGoM c.layers mult max_ap c.KD_required (1/10) }) := by
  cases hp : pyMax (nonLastAcs c.layers) with
  | none => unfold kdcalcM; rw [hp]; rfl
  | some m => unfold kdcalcM; rw [hp]; rfl

/-- Destructuring a completed KD pass started on an empty
`KD_required`: the layers are untouched, the result dict is exactly the
loop's pair list, and its keys are the grid `0.1, 0.2, ...,
⌊10·max_ap⌋/10`. -/
theorem kdcalc_characterize (c : ArmorChunk) (θ : ℝ) (c' : ArmorChunk)
    (hk : c.KD_required = []) (h : c.kdcalc θ = some c') :
    ∃ m, pyMax (nonLastAcs c.layers) = some m ∧
      c'.layers = c.layers ∧
      c'.KD_required = kdPairs c.layers (angle_multiplier θ) m (1/10) ∧
      c'.KD_required.map Prod.fst =
        (List.range (⌊m * 10⌋).toNat).map (fun j => ((1 + j : ℕ) : ℚ) / 10) := by
  unfold ArmorChunk.kdcalc at h
  rw [kdcalcM_eq] at h
  cases hp : pyMax (nonLastAcs c.layers) with
  | none => rw [hp] at h; cases h
  | some m =>
      rw [hp, Option.map_some'] at h
      obtain rfl := (Option.some.inj h)
      refine ⟨m, rfl, rfl, ?_, ?_⟩
      · show kdLoopGoM c.layers (angle_multiplier θ) m c.KD_required (1/10) = _
        rw [hk, kdLoopGoM_eq_insertAll]
        have hkeys : (kdPairs c.layers (angle_multiplier θ) m (1/10)).map Prod.fst =
            (List.range (⌊m * 10⌋).toNat).map (fun j => ((1 + j : ℕ) : ℚ) / 10) := by
          have h1 : ((1 : ℕ) : ℚ) / 10 = (1/10 : ℚ) := by norm_num
          rw [← h1]
          exact kdPairs_keys c.layers (angle_multiplier θ) m (⌊m * 10⌋).toNat 1 le_rfl
            (by omega)
        have hnd : ((kdPairs c.layers (angle_multiplier θ) m (1/10)).map Prod.fst).Nodup := by
          rw [hkeys]
          exact (grid_pairwise_lt 1 (⌊m * 10⌋).toNat).imp ne_of_lt
        rw [dictInsertAll_fresh _ [] (fun k _ => rfl) hnd]
        rfl
      · show (kdLoopGoM c.layers (angle_multiplier θ) m c.KD_required (1/10)).map Prod.fst = _
        rw [hk, kdLoopGoM_eq_insertAll]
        have h1 : ((1 : ℕ) : ℚ) / 10 = (1/10 : ℚ) := by norm_num
        have hkeys : (kdPairs c.layers (angle_multiplier θ) m (1/10)).map Prod.fst =
            (List.range (⌊m * 10⌋).toNat).map (fun j => ((1 + j : ℕ) : ℚ) / 10) := by
          rw [← h1]
          exact kdPairs_keys c.layers (angle_multiplier θ) m (⌊m * 10⌋).toNat 1 le_rfl
            (by omega)
        have hnd : ((kdPairs c.layers (angle_multiplier θ) m (1/10)).map Prod.fst).Nodup :=
          hkeys ▸ (grid_pairwise_lt 1 (⌊m * 10⌋).toNat).imp ne_of_lt
        rw [dictInsertAll_fresh _ [] (fun k _ => rfl) hnd]
        exact hkeys

theorem kdPairs_keys_std (l : List Layer) (mult : ℝ) (m : ℚ) :
    (kdPairs l mult m (1/10)).map Prod.fst =
      (List.range (⌊m * 10⌋).toNat).map (fun j => ((1 + j : ℕ) : ℚ) / 10) := by
  have h1 : ((1 : ℕ) : ℚ) / 10 = (1/10 : ℚ) := by norm_num
  rw [← h1]
  exact kdPairs_keys l mult m (⌊m * 10⌋).toNat 1 le_rfl (by omega)

theorem kdPairs_keys_nodup (l : List Layer) (mult : ℝ) (m : ℚ) :
    ((kdPairs l mult m (1/10)).map Prod.fst).Nodup :=
  (kdPairs_keys_std l mult m) ▸ (grid_pairwise_lt 1 (⌊m * 10⌋).toNat).imp ne_of_lt

/-! ## Claim theorems for the KD pass -/

/-- C2 (amended): on a chunk whose `KD_required` starts empty and whose
KD pass completes, `max_ap` is the maximum `ac` over the non-last
layers, and the keys of `KD_required` are the strictly ascending grid
`0.1, 0.2, ..., ⌊10·max_ap⌋/10` — every key is between `0.1` and
`max_ap`, and the sequence ends at the last grid value `≤ max_ap`
(which is the first grid value `≥ max_ap` only when `max_ap` is a
positive multiple of `0.1`). -/
theorem claim_C2_kdcalc_keys :
    ∀ (c : ArmorChunk) (θ : ℝ) (c' : ArmorChunk),
      c.KD_required = [] → c.kdcalc θ = some c' →
      ∃ m, pyMax (nonLastAcs c.layers) = some m ∧
        m ∈ nonLastAcs c.layers ∧
        (∀ x ∈ nonLastAcs c.layers, x ≤ m) ∧
        c'.KD_required.map Prod.fst =
          (List.range (⌊m * 10⌋).toNat).map (fun j => ((1 + j : ℕ) : ℚ) / 10) ∧
        (c'.KD_required.map Prod.fst).Pairwise (· < ·) ∧
        ∀ x ∈ c'.KD_required.map Prod.fst, 1/10 ≤ x ∧ x ≤ m := by
  intro c θ c' hk h
  obtain ⟨m, hm, _, _, hkeys⟩ := kdcalc_characterize c θ c' hk h
  refine ⟨m, hm, pyMax_mem _ _ hm, pyMax_le _ _ hm, hkeys,
    hkeys ▸ grid_pairwise_lt 1 (⌊m * 10⌋).toNat, ?_⟩
  intro x hx
  rw [hkeys] at hx
  obtain ⟨j, hj, rfl⟩ := List.mem_map.1 hx
  have hj' : j < (⌊m * 10⌋).toNat := List.mem_range.1 hj
  constructor
  · have h1 : (1 : ℚ) ≤ ((1 + j : ℕ) : ℚ) := by exact_mod_cast Nat.le_add_right 1 j
    linarith
  · have h1 : ((1 + j : ℕ) : ℤ) ≤ ⌊m * 10⌋ := by omega
    have h2 : (((1 + j : ℕ) : ℤ) : ℚ) ≤ m * 10 := Int.le_floor.1 h1
    push_cast at h2 ⊢
    linarith

/-- C4: every value the KD pass stores is the fold over the non-last
layers whose step rounds the running sum to the nearest integer after
adding each layer's contribution `hp * (ac / shell_ap) * angle
multiplier` — the rounding happens after every single layer, not once
at the end. -/
theorem claim_C4_per_layer_rounding :
    ∀ (c : ArmorChunk) (θ : ℝ) (c' : ArmorChunk),
      c.KD_required = [] → c.kdcalc θ = some c' →
      ∀ p ∈ c'.KD_required,
        p.2 = (c.layers.take (c.layers.length - 1)).foldl
          (fun acc layer =>
            pyRoundR ((acc : ℝ) +
              (layer.hp : ℝ) * ((layer.ac : ℝ) / (p.1 : ℝ)) * angle_multiplier θ)) 0 := by
  intro c θ c' hk h p hp
  obtain ⟨m, _, _, hkd, _⟩ := kdcalc_characterize c θ c' hk h
  rw [hkd] at hp
  rw [kdPairs_snd c.layers (angle_multiplier θ) m (1/10) p hp]
  unfold innerFoldM
  exact foldl_range_getD c.layers
    (fun acc layer =>
      pyRoundR ((acc : ℝ) +
        (layer.hp : ℝ) * ((layer.ac : ℝ) / (p.1 : ℝ)) * angle_multiplier θ))
    (c.layers.length - 1) (Nat.sub_le _ _) 0

/-- C7: at shell angle `0` the angle multiplier `1 - cos 0` is `0`, so
every value the KD pass stores is `0`. -/
theorem claim_C7_zero_angle :
    ∀ (c : ArmorChunk) (c' : ArmorChunk),
      c.KD_required = [] → c.kdcalc 0 = some c' →
      ∀ p ∈ c'.KD_required, p.2 = 0 := by
  intro c c' hk h p hp
  obtain ⟨m, _, _, hkd, _⟩ := kdcalc_characterize c 0 c' hk h
  rw [hkd] at hp
  have hv := kdPairs_snd c.layers (angle_multiplier 0) m (1/10) p hp
  have hmz : angle_multiplier 0 = 0 := by
    unfold angle_multiplier
    rw [Real.cos_zero]
    ring
  rw [hmz] at hv
  rw [hv, innerFoldM_mult_zero]

/-- C9: with at least two layers the KD pass always completes, for any
shell angle (the `max` call sees a nonempty list and nothing after it
can fail); and when the maximum non-last `ac` is below `0.1` the AP
loop runs zero times and the chunk is returned unchanged. -/
theorem claim_C9_no_failure :
    ∀ (c : ArmorChunk) (θ : ℝ), 2 ≤ c.layers.length →
      ∃ c', c.kdcalc θ = some c' ∧
        ∀ m, pyMax (nonLastAcs c.layers) = some m → m < 1/10 → c' = c := by
  intro c θ hlen
  cases hm : pyMax (nonLastAcs c.layers) with
  | none =>
      exfalso
      have hnil := (pyMax_eq_none _).1 hm
      have : (nonLastAcs c.layers).length = c.layers.length - 1 := by
        unfold nonLastAcs
        rw [List.length_map, List.length_range]
      rw [hnil] at this
      simp at this
      omega
  | some m =>
      refine ⟨{ layers := c.layers,
                KD_required := kdLoopGoM c.layers (angle_multiplier θ) m c.KD_required (1/10) },
        ?_, ?_⟩
      · unfold ArmorChunk.kdcalc
        rw [kdcalcM_eq, hm, Option.map_some']
      · intro m' hm' hlt
        obtain rfl : m = m' := Option.some.inj (hm ▸ hm')
        rw [kdLoopGoM_eq, if_neg (by linarith : ¬ (1/10 : ℚ) ≤ m)]

/-- C10: the KD pass is idempotent — a second run with the same angle
reads the same (untouched) layers, recomputes the same (AP, KD) pairs,
and overwrites each existing key with the same value, leaving
`KD_required` exactly as the first run left it. -/
theorem claim_C10_kdcalc_idempotent :
    ∀ (c : ArmorChunk) (θ : ℝ) (c₁ : ArmorChunk),
      2 ≤ c.layers.length → c.kdcalc θ = some c₁ → c₁.kdcalc θ = some c₁ := by
  intro c θ c₁ _ h
  unfold ArmorChunk.kdcalc at h ⊢
  rw [kdcalcM_eq] at h
  cases hm : pyMax (nonLastAcs c.layers) with
  | none => rw [hm] at h; cases h
  | some m =>
      rw [hm, Option.map_some'] at h
      obtain rfl := Option.some.inj h
      rw [kdcalcM_eq]
      show (pyMax (nonLastAcs c.layers)).map _ = _
      rw [hm, Option.map_some']
      congr 1
      show ArmorChunk.mk c.layers _ = ArmorChunk.mk c.layers _
      congr 1
      show kdLoopGoM c.layers (angle_multiplier θ) m
          (kdLoopGoM c.layers (angle_multiplier θ) m c.KD_required (1/10)) (1/10) =
        kdLoopGoM c.layers (angle_multiplier θ) m c.KD_required (1/10)
      rw [kdLoopGoM_eq_insertAll c.layers (angle_multiplier θ) m (1/10) c.KD_required,
        kdLoopGoM_eq_insertAll]
      exact dictInsertAll_id _ _
        (dictLookup_dictInsertAll_mem _ c.KD_required
          (kdPairs_keys_nodup c.layers (angle_multiplier θ) m))

/-- C8 (frame): `armorcalc` changes nothing but the `ac` of non-last
layers — `KD_required`, the layer count, every layer's `hp` and
structural flag, and the last layer's `ac` are preserved; `kdcalc`
leaves the layer list entirely unchanged and mutates only
`KD_required`. -/
theorem claim_C8_frame :
    (∀ c : ArmorChunk,
      c.armorcalc.KD_required = c.KD_required ∧
      c.armorcalc.layers.length = c.layers.length ∧
      (∀ i, (c.armorcalc.layers.getD i default).hp = (c.layers.getD i default).hp ∧
        (c.armorcalc.layers.getD i default).is_structural =
          (c.layers.getD i default).is_structural) ∧
      (c.armorcalc.layers.getD (c.layers.length - 1) default).ac =
        (c.layers.getD (c.layers.length - 1) default).ac) ∧
    (∀ (c : ArmorChunk) (θ : ℝ) (c' : ArmorChunk),
      c.kdcalc θ = some c' → c'.layers = c.layers) := by
  constructor
  · intro c
    refine ⟨rfl, armorcalcL_length c.layers,
      fun i => ⟨armorcalcL_hp c.layers i, armorcalcL_structural c.layers i⟩, ?_⟩
    show ((armorcalcL c.layers).getD (c.layers.length - 1) default).ac = _
    rw [armorcalcL_getD_ge c.layers (c.layers.length - 1) (by omega)]
  · intro c θ c' h
    unfold ArmorChunk.kdcalc at h
    rw [kdcalcM_eq] at h
    cases hm : pyMax (nonLastAcs c.layers) with
    | none => rw [hm] at h; cases h
    | some m =>
        rw [hm, Option.map_some'] at h
        obtain rfl := Option.some.inj h
        rfl

/-- C6 (amended): on a chunk with zero or one layer `armorcalc` runs
zero boost iterations and returns the chunk unchanged, while `kdcalc`
runs zero summation iterations but fails (Python raises `ValueError`
at `max([])`) instead of completing. -/
theorem claim_C6_short_chunks :
    ∀ (c : ArmorChunk) (θ : ℝ), c.layers.length ≤ 1 →
      c.armorcalc = c ∧ c.kdcalc θ = none := by
  intro c θ h
  have hz : c.layers.length - 1 = 0 := by omega
  constructor
  · show ArmorChunk.mk (armorcalcL c.layers) c.KD_required = c
    unfold armorcalcL
    rw [hz]
    rfl
  · unfold ArmorChunk.kdcalc
    rw [kdcalcM_eq]
    have hnil : nonLastAcs c.layers = [] := by
      unfold nonLastAcs
      rw [hz]
      rfl
    rw [hnil]
    rfl

/-- C3: the angle multiplier `kdcalc` feeds to the inner fold is
`1 - cos shell_angle` applied to the caller-supplied number as-is —
no degree-to-radian conversion happens: at the caller value `90` the
multiplier differs from the converted `1 - cos (90·π/180)`, because
`cos 90 = 0` would force `π = 180/(2k+1)`, contradicting the
irrationality of `π`. -/
theorem claim_C3_radians_not_degrees :
    (∀ (c : ArmorChunk) (θ : ℝ), c.kdcalc θ = kdcalcM c (angle_multiplier θ)) ∧
    (∀ θ : ℝ, angle_multiplier θ = 1 - Real.cos θ) ∧
    angle_multiplier 90 ≠ 1 - Real.cos (90 * Real.pi / 180) := by
  refine ⟨fun c θ => rfl, fun θ => rfl, ?_⟩
  unfold angle_multiplier
  intro hEq
  have hcos : Real.cos 90 = Real.cos (90 * Real.pi / 180) := by linarith
  have hpi2 : (90 : ℝ) * Real.pi / 180 = Real.pi / 2 := by ring
  rw [hpi2, Real.cos_pi_div_two] at hcos
  obtain ⟨n, hn⟩ := Real.cos_eq_zero_iff.1 hcos
  have hodd : (2 * (n : ℝ) + 1) ≠ 0 := by
    intro h0
    have : (2 * n + 1 : ℤ) = 0 := by exact_mod_cast h0
    omega
  have h180 : (2 * (n : ℝ) + 1) * Real.pi = 180 := by
    have h90 : (90 : ℝ) = (2 * (n : ℝ) + 1) * Real.pi / 2 := by exact_mod_cast hn
    linarith
  have hpi : Real.pi = 180 / (2 * (n : ℝ) + 1) := by
    rw [eq_div_iff hodd]
    linarith
  refine irrational_pi ⟨(180 : ℚ) / (2 * (n : ℚ) + 1), ?_⟩
  rw [hpi]
  push_cast
  ring

/-! ## Concrete chunks and evaluations -/

/-- Two structural layers; the sole non-last `ac` is exactly `0.1`, so
the AP loop runs exactly once. -/
def chunkA : ArmorChunk := ⟨[⟨1, 1/10, true⟩, ⟨2, 3, true⟩], []⟩

/-- `chunkA` after `kdcalc 0`. -/
def chunkA' : ArmorChunk := ⟨[⟨1, 1/10, true⟩, ⟨2, 3, true⟩], [(1/10, 0)]⟩

/-- Non-last layer is AIR-like (`ac = 0`), so `max_ap < 0.1` and the AP
loop runs zero times. -/
def chunkB : ArmorChunk := ⟨[⟨0, 0, false⟩, ⟨5, 3, true⟩], []⟩

/-- Non-last `ac` is `0.25`, which is not a multiple of `0.1`. -/
def chunkC : ArmorChunk := ⟨[⟨0, 1/4, true⟩, ⟨0, 0, false⟩], []⟩

/-- `chunkC` after `kdcalc 0`. -/
def chunkC' : ArmorChunk := ⟨[⟨0, 1/4, true⟩, ⟨0, 0, false⟩], [(1/10, 0), (1/5, 0)]⟩

/-- A single-layer chunk. -/
def chunkD : ArmorChunk := ⟨[⟨864, 8, true⟩], []⟩

theorem angle_multiplier_zero : angle_multiplier 0 = 0 := by
  unfold angle_multiplier
  rw [Real.cos_zero]
  ring

theorem dictInsert_cons_ne (k' : ℚ) (v' : ℤ) (rest : List (ℚ × ℤ)) (k : ℚ) (v : ℤ)
    (h : ¬ k' = k) : dictInsert ((k', v') :: rest) k v = (k', v') :: dictInsert rest k v := by
  show (if k' = k then (k, v) :: rest else (k', v') :: dictInsert rest k v) = _
  rw [if_neg h]

theorem pyRound1_tenth_step : pyRound1 ((1 : ℚ)/10 + 1/10) = 1/5 := by
  rw [show (1 : ℚ)/10 + 1/10 = ((2 : ℤ) : ℚ)/10 by norm_num, pyRound1_grid]
  norm_num

theorem pyRound1_fifth_step : pyRound1 ((1 : ℚ)/5 + 1/10) = 3/10 := by
  rw [show (1 : ℚ)/5 + 1/10 = ((3 : ℤ) : ℚ)/10 by norm_num, pyRound1_grid]
  norm_num

theorem kdcalc_chunkA : chunkA.kdcalc 0 = some chunkA' := by
  unfold ArmorChunk.kdcalc
  rw [angle_multiplier_zero, kdcalcM_eq]
  have hm : pyMax (nonLastAcs chunkA.layers) = some (1/10) := rfl
  rw [hm, Option.map_some']
  congr 1
  show ArmorChunk.mk chunkA.layers (kdLoopGoM chunkA.layers 0 (1/10) [] (1/10)) = chunkA'
  rw [kdLoopGoM_eq, if_pos (le_refl (1/10 : ℚ)), innerFoldM_mult_zero,
    pyRound1_tenth_step,
    kdLoopGoM_eq, if_neg (by norm_num : ¬ ((1 : ℚ)/5 ≤ 1/10))]
  rfl

theorem kdcalc_chunkB : chunkB.kdcalc 0 = some chunkB := by
  unfold ArmorChunk.kdcalc
  rw [angle_multiplier_zero, kdcalcM_eq]
  have hm : pyMax (nonLastAcs chunkB.layers) = some 0 := rfl
  rw [hm, Option.map_some']
  congr 1
  show ArmorChunk.mk chunkB.layers (kdLoopGoM chunkB.layers 0 0 [] (1/10)) = chunkB
  rw [kdLoopGoM_eq, if_neg (by norm_num : ¬ ((1 : ℚ)/10 ≤ 0))]
  rfl

theorem kdcalc_chunkC : chunkC.kdcalc 0 = some chunkC' := by
  unfold ArmorChunk.kdcalc
  rw [angle_multiplier_zero, kdcalcM_eq]
  have hm : pyMax (nonLastAcs chunkC.layers) = some (1/4) := rfl
  rw [hm, Option.map_some']
  congr 1
  show ArmorChunk.mk chunkC.layers (kdLoopGoM chunkC.layers 0 (1/4) [] (1/10)) = chunkC'
  rw [kdLoopGoM_eq, if_pos (by norm_num : (1 : ℚ)/10 ≤ 1/4), innerFoldM_mult_zero,
    pyRound1_tenth_step,
    kdLoopGoM_eq, if_pos (by norm_num : (1 : ℚ)/5 ≤ 1/4), innerFoldM_mult_zero,
    pyRound1_fifth_step,
    kdLoopGoM_eq, if_neg (by norm_num : ¬ ((3 : ℚ)/10 ≤ 1/4))]
  rw [show dictInsert ([] : List (ℚ × ℤ)) (1/10) 0 = [(1/10, 0)] from rfl,
    dictInsert_cons_ne (1/10) 0 [] (1/5) 0 (by norm_num)]
  rfl

/-! ## Witnesses and counterexamples -/

theorem claim_C2_witness :
    chunkA.KD_required = [] ∧ chunkA.kdcalc 0 = some chunkA' ∧
    (∃ m, pyMax (nonLastAcs chunkA.layers) = some m ∧
      m ∈ nonLastAcs chunkA.layers ∧
      (∀ x ∈ nonLastAcs chunkA.layers, x ≤ m) ∧
      chunkA'.KD_required.map Prod.fst =
        (List.range (⌊m * 10⌋).toNat).map (fun j => ((1 + j : ℕ) : ℚ) / 10) ∧
      (chunkA'.KD_required.map Prod.fst).Pairwise (· < ·) ∧
      ∀ x ∈ chunkA'.KD_required.map Prod.fst, 1/10 ≤ x ∧ x ≤ m) :=
  ⟨rfl, kdcalc_chunkA, claim_C2_kdcalc_keys chunkA 0 chunkA' rfl kdcalc_chunkA⟩

/-- The claim's stated ending value fails on `chunkC`: `max_ap = 1/4`,
the keys are `[0.1, 0.2]`, and the final key `0.2` is strictly below
`max_ap`, so the sequence does not end at the first grid value
`≥ max_ap` (which would be `0.3`). -/
theorem claim_C2_counterexample :
    chunkC.kdcalc 0 = some chunkC' ∧
    pyMax (nonLastAcs chunkC.layers) = some (1/4) ∧
    chunkC'.KD_required.map Prod.fst = [1/10, 1/5] ∧
    (chunkC'.KD_required.map Prod.fst).getLast? = some (1/5) ∧
    ¬ ((1 : ℚ)/4 ≤ 1/5) :=
  ⟨kdcalc_chunkC, rfl, rfl, rfl, by norm_num⟩

theorem claim_C4_witness :
    chunkA.KD_required = [] ∧ chunkA.kdcalc 0 = some chunkA' ∧
    ∀ p ∈ chunkA'.KD_required,
      p.2 = (chunkA.layers.take (chunkA.layers.length - 1)).foldl
        (fun acc layer =>
          pyRoundR ((acc : ℝ) +
            (layer.hp : ℝ) * ((layer.ac : ℝ) / (p.1 : ℝ)) * angle_multiplier 0)) 0 :=
  ⟨rfl, kdcalc_chunkA, claim_C4_per_layer_rounding chunkA 0 chunkA' rfl kdcalc_chunkA⟩

theorem claim_C7_witness :
    chunkA.KD_required = [] ∧ chunkA.kdcalc 0 = some chunkA' ∧
    ∀ p ∈ chunkA'.KD_required, p.2 = 0 :=
  ⟨rfl, kdcalc_chunkA, claim_C7_zero_angle chunkA chunkA' rfl kdcalc_chunkA⟩

theorem claim_C9_witness :
    2 ≤ chunkB.layers.length ∧
    ∃ c', chunkB.kdcalc 37 = some c' ∧
      ∀ m, pyMax (nonLastAcs chunkB.layers) = some m → m < 1/10 → c' = chunkB :=
  ⟨by decide, claim_C9_no_failure chunkB 37 (by decide)⟩

theorem claim_C10_witness :
    2 ≤ chunkA.layers.length ∧ chunkA.kdcalc 0 = some chunkA' ∧
    chunkA'.kdcalc 0 = some chunkA' :=
  ⟨by decide, kdcalc_chunkA,
    claim_C10_kdcalc_idempotent chunkA 0 chunkA' (by decide) kdcalc_chunkA⟩

theorem claim_C8_witness :
    chunkB.kdcalc 0 = some chunkB ∧ chunkB.layers = chunkB.layers :=
  ⟨kdcalc_chunkB, claim_C8_frame.2 chunkB 0 chunkB kdcalc_chunkB⟩

theorem claim_C6_witness :
    chunkD.layers.length ≤ 1 ∧ chunkD.armorcalc = chunkD ∧ chunkD.kdcalc 0 = none :=
  ⟨by decide, claim_C6_short_chunks chunkD 0 (by decide)⟩

/-- The claim's "completes without error" fails on a one-layer chunk:
`kdcalc` hits `max([])` (a `ValueError` in the source, `none` here)
instead of completing. -/
theorem claim_C6_counterexample : chunkD.kdcalc 0 = none := by
  unfold ArmorChunk.kdcalc
  rw [kdcalcM_eq]
  rfl

theorem claim_C3_witness :
    chunkD.kdcalc 0 = kdcalcM chunkD (angle_multiplier 0) :=
  claim_C3_radians_not_degrees.1 chunkD 0

end Pencalc
